import Mathlib

/-!
Verification of the core of `wordgrid.py` (word-chain puzzle on a letter grid).

The Python source is shallowly embedded: words are lists of characters,
the grid is a list of rows (list of characters), coordinates are integers
(Python ints may go negative), and functions that raise exceptions are
modelled with `Except`.  Python list indexing `l[i]` resolves a negative
index `i` with `-len(l) <= i < 0` to `len(l) + i` and raises `IndexError`
otherwise; this resolution is the `pyIdx` function below.  `strictIdx` is
the same access discipline without the negative wrap: a run of the grid
walk under `strictIdx` succeeds exactly when every index used lies in
`[0, len)`, which is how the in-bounds-access safety statements are phrased.
-/

/-- Words are sequences of characters (Python `str`). -/
abbrev Word := List Char

/-- A chain entry: a word together with its direction character
(`'N'`, `'S'`, `'E'`, `'W'` in the source). -/
abbrev Entry := Word × Char

/-- The grid: a list of rows, each a list of cells (Python 2-D list). -/
abbrev Grid := List (List Char)

/-- The `Settings` class of the source: grid dimensions, the loaded
dictionary, and the filler character (`"."` in the source). -/
structure Settings where
  grid_width : Nat
  grid_height : Nat
  dictionary : List Word
  filler : Char
deriving Repr

/-- `Settings.empty_grid`: a `grid_height × grid_width` grid of filler
(`[[cls.filler] * cls.grid_width for _ in range(cls.grid_height)]`). -/
def Settings.empty_grid (s : Settings) : Grid :=
  List.replicate s.grid_height (List.replicate s.grid_width s.filler)

/-- The violations raised as `InvalidWord` by the source (distinguished in
the source only by their message text), plus `crash` for a Python
`IndexError` (which is not an `InvalidWord`): an index outside even the
negative-wrap range, or reading `word[0][0]` of an empty word. -/
inductive Violation where
  | notInDictionary (w : Word)
  | wrongStartLetter (w : Word) (expected : Char)
  | outOfBounds (w : Word)
  | duplicateWord
  | clash (w : Word)
  | crash
deriving Repr, DecidableEq

/-- An index-resolution discipline: given a list length and an `Int` index,
return the resolved `Nat` position, or `none` for an access error. -/
abbrev Idx := Nat → Int → Option Nat

/-- Python list-index resolution: `0 <= i < n` resolves to `i`, a negative
`i` with `-n <= i` wraps to `n + i`, anything else raises `IndexError`. -/
def pyIdx : Idx := fun n i =>
  if 0 ≤ i ∧ i < (n : Int) then some i.toNat
  else if i < 0 ∧ 0 ≤ i + (n : Int) then some (i + (n : Int)).toNat
  else none

/-- Strict index resolution: only `0 <= i < n` is a valid access.  A grid
walk that succeeds under `strictIdx` performed every access at a
coordinate in `[0, len)`. -/
def strictIdx : Idx := fun n i =>
  if 0 ≤ i ∧ i < (n : Int) then some i.toNat else none

/-- Read `l[i]` under an index discipline. -/
def getAt (idx : Idx) (l : List Char) (i : Int) : Option Char :=
  (idx l.length i).bind fun j => l.get? j

/-- Write `l[i] = c` under an index discipline. -/
def setAt (idx : Idx) (l : List Char) (i : Int) (c : Char) : Option (List Char) :=
  (idx l.length i).map fun j => l.set j c

/-- Read `grid[y][x]` under an index discipline. -/
def readCell (idx : Idx) (g : Grid) (x y : Int) : Option Char :=
  match (idx g.length y).bind fun j => g.get? j with
  | none => none
  | some row => getAt idx row x

/-- Write `grid[y][x] = c` under an index discipline: resolve `grid[y]`,
then mutate that row at `x` (the source mutates the row in place, so the
updated row replaces the old one at the same position). -/
def writeCell (idx : Idx) (g : Grid) (x y : Int) (c : Char) : Option Grid :=
  match idx g.length y with
  | none => none
  | some jy =>
    match g.get? jy with
    | none => none
    | some row =>
      match setAt idx row x c with
      | none => none
      | some row2 => some (g.set jy row2)

/-- One per-letter cursor step of `fill_grid_from_wordlist`
(`if word[1] == "N": y -= 1` / `elif "S"` / `elif "E"` / `elif "W"`,
no movement for any other direction character). -/
def step (d : Char) (x y : Int) : Int × Int :=
  if d = 'N' then (x, y - 1)
  else if d = 'S' then (x, y + 1)
  else if d = 'E' then (x + 1, y)
  else if d = 'W' then (x - 1, y)
  else (x, y)

/-- The per-word endpoint advance of `validate`: the cursor moves
`len(word) - 1` cells along the word's direction (no movement for any
other direction character). -/
def advanceEnd (d : Char) (x y : Int) (len : Nat) : Int × Int :=
  if d = 'N' then (x, y - ((len : Int) - 1))
  else if d = 'S' then (x, y + ((len : Int) - 1))
  else if d = 'E' then (x + ((len : Int) - 1), y)
  else if d = 'W' then (x - ((len : Int) - 1), y)
  else (x, y)

/-- Horizontal unit delta of a direction character. -/
def dxOf (d : Char) : Int :=
  if d = 'E' then 1 else if d = 'W' then -1 else 0

/-- Vertical unit delta of a direction character. -/
def dyOf (d : Char) : Int :=
  if d = 'N' then -1 else if d = 'S' then 1 else 0

/-- The clash guard of `fill_grid_from_wordlist`
(`if index > 0 and grid[y][x] not in [Settings.filler, letter]`): past the
first letter, the current cell must hold filler or the letter being
placed, else the word clashes with another word (and an out-of-range read
is a Python `IndexError`). -/
def clashCheck (idx : Idx) (filler : Char) (w : Word) (c : Char) (i : Nat)
    (g : Grid) (x y : Int) : Except Violation Unit :=
  if 0 < i then
    match readCell idx g x y with
    | none => .error .crash
    | some cur =>
      if cur = filler ∨ cur = c then .ok () else .error (.clash w)
  else .ok ()

/-- The inner letter loop of `fill_grid_from_wordlist` for one word `w`:
`rest` is the remaining suffix of `w` and `i` the current `enumerate`
index.  Run the clash guard, write the letter, and move the cursor only
while `i < len(w) - 1`. -/
def placeWordAux (idx : Idx) (filler : Char) (d : Char) (w : Word) :
    List Char → Nat → Int → Int → Grid → Except Violation (Int × Int × Grid)
  | [], _, x, y, g => .ok (x, y, g)
  | c :: rest, i, x, y, g =>
    match clashCheck idx filler w c i g x y with
    | .error e => .error e
    | .ok _ =>
      match writeCell idx g x y c with
      | none => .error .crash
      | some g2 =>
        let p := if i < w.length - 1 then step d x y else (x, y)
        placeWordAux idx filler d w rest (i + 1) p.1 p.2 g2

/-- The outer word loop of `fill_grid_from_wordlist`: place each word in
turn, tracking the running cursor and the last letter written (which the
loop variable `letter` of the source retains across words; an empty word
leaves it unchanged). -/
def fillWordsAux (idx : Idx) (filler : Char) :
    List Entry → Int → Int → Char → Grid → Except Violation (Int × Int × Char × Grid)
  | [], x, y, letter, g => .ok (x, y, letter, g)
  | (w, d) :: rest, x, y, letter, g =>
    match placeWordAux idx filler d w w 0 x y g with
    | .error e => .error e
    | .ok (x2, y2, g2) => fillWordsAux idx filler rest x2 y2 (w.getLastD letter) g2

/-- `fill_grid_from_wordlist`, parameterised by the index discipline:
start from an empty grid, write the seed letter at the seed position
(`grid[seed[1][1]][seed[1][0]] = seed[0]`), then place every word starting
from the seed position.  Returns the final cursor, the last letter written,
and the grid. -/
def fillWithIdx (idx : Idx) (s : Settings) (seed : Char × Int × Int)
    (wl : List Entry) : Except Violation (Int × Int × Char × Grid) :=
  match writeCell idx s.empty_grid seed.2.1 seed.2.2 seed.1 with
  | none => .error .crash
  | some g1 => fillWordsAux idx s.filler wl seed.2.1 seed.2.2 seed.1 g1

/-- `fill_grid_from_wordlist` with Python's index semantics. -/
def fill_grid_from_wordlist (s : Settings) (seed : Char × Int × Int)
    (wl : List Entry) : Except Violation (Int × Int × Char × Grid) :=
  fillWithIdx pyIdx s seed wl

/-- `fill_grid_from_wordlist` rerun with strict (no negative wrap) index
resolution: it returns `.ok`/`.error (.clash _)` through the very same walk
as the Python version, but any access outside `[0, width) × [0, height)`
becomes `.error .crash`. -/
def fillStrict (s : Settings) (seed : Char × Int × Int)
    (wl : List Entry) : Except Violation (Int × Int × Char × Grid) :=
  fillWithIdx strictIdx s seed wl

/-- `calculate_score`: `score = 0`, then `score += len(word[0])` for each
entry of the wordlist. -/
def calculate_score (wl : List Entry) : Nat :=
  wl.foldl (fun score word => score + word.1.length) 0

/-- The body of `calculate_seed` as the sequence of values of its `return`
statements: the hard-coded `return ("A", (5, 5))` (line 144), followed by
the randomized `return (choice(...), (randint(...), randint(...)))`
(lines 145–151), whose would-be random outputs are the arguments
`randLetter`, `randX`, `randY`. -/
def calculate_seed_stmts (randLetter : Char) (randX randY : Int) :
    List (Char × Int × Int) :=
  [('A', 5, 5), (randLetter, randX, randY)]

/-- Executing a straight-line body made only of `return` statements yields
the value of the first one; the rest are unreachable. -/
def runFirstReturn : List (Char × Int × Int) → Option (Char × Int × Int)
  | [] => none
  | v :: _ => some v

/-- `calculate_seed`: seeding the PRNG with today's date has no observable
effect on the returned value; the function body then executes its first
`return`.  `s` stands for the ambient `Settings` (whose dimensions bound
the `randint` calls of the dead code) and `today` for the current date. -/
def calculate_seed (s : Settings) (today : Nat) (randLetter : Char)
    (randX randY : Int) : Option (Char × Int × Int) :=
  runFirstReturn (calculate_seed_stmts randLetter randX randY)

/-- In-bounds predicate matching `validate`'s checks
`0 <= x <= grid_width - 1` and `0 <= y <= grid_height - 1`. -/
def InB (s : Settings) (x y : Int) : Prop :=
  0 ≤ x ∧ x ≤ (s.grid_width : Int) - 1 ∧ 0 ≤ y ∧ y ≤ (s.grid_height : Int) - 1

instance (s : Settings) (x y : Int) : Decidable (InB s x y) := by
  unfold InB; exact inferInstance

/-- The per-word checks of `validate`'s loop body, in source order:
dictionary membership, then first-letter continuity (reading `word[0][0]`
of an empty word is a Python `IndexError`, hence `.crash`), then the
endpoint advance by `len(word) - 1` with the x-axis bound checked before
the y-axis bound. -/
def checkWord (s : Settings) (last : Char) (x y : Int) (w : Word) (d : Char) :
    Except Violation Unit :=
  if w ∉ s.dictionary then .error (.notInDictionary w)
  else
    match w with
    | [] => .error .crash
    | c :: _ =>
      if c ≠ last then .error (.wrongStartLetter w last)
      else
        let p := advanceEnd d x y w.length
        if ¬ (0 ≤ p.1 ∧ p.1 ≤ (s.grid_width : Int) - 1) then .error (.outOfBounds w)
        else if ¬ (0 ≤ p.2 ∧ p.2 ≤ (s.grid_height : Int) - 1) then .error (.outOfBounds w)
        else .ok ()

/-- The word loop of `validate`: run the per-word checks left to right over
the chain, threading the running last letter (`last_letter = word[0][-1]`)
and the endpoint cursor. -/
def validateWords (s : Settings) :
    Char → Int → Int → List Entry → Except Violation Unit
  | _, _, _, [] => .ok ()
  | last, x, y, (w, d) :: rest =>
    match checkWord s last x y w d with
    | .error e => .error e
    | .ok _ =>
      let p := advanceEnd d x y w.length
      validateWords s (w.getLastD last) p.1 p.2 rest

/-- `validate`: the per-word pass, then the duplicate check
(`len(wordlist) != len(set(word[0] for word in wordlist))`), then the full
placement pass of `fill_grid_from_wordlist`, whose `InvalidWord` (clash) or
`IndexError` propagates. -/
def validate (s : Settings) (seed : Char × Int × Int) (wl : List Entry) :
    Except Violation Unit :=
  match validateWords s seed.1 seed.2.1 seed.2.2 wl with
  | .error e => .error e
  | .ok _ =>
    if wl.length ≠ (wl.map (·.1)).dedup.length then .error .duplicateWord
    else
      match fill_grid_from_wordlist s seed wl with
      | .error e => .error e
      | .ok _ => .ok ()

/-- The candidate-submission step of `main` (lines 488–491 of the source):
build `temp_wordlist = wordlist + [(word, direction)]`, validate it, and
install it as the canonical chain only on success; on failure the
exception is caught and the canonical chain is left as it was. -/
def submitWord (s : Settings) (seed : Char × Int × Int) (wordlist : List Entry)
    (w : Word) (d : Char) : List Entry × Option Violation :=
  let temp := wordlist ++ [(w, d)]
  match validate s seed temp with
  | .ok _ => (temp, none)
  | .error e => (wordlist, some e)

/-- Modelled from the spec (section 4.2): the list of the per-word rules a
word violates, in the spec's fixed priority order — dictionary membership,
start-letter continuity, endpoint bounds — each rule evaluated
independently of the others.  (An empty word has no first letter to test
continuity on; as in the code, that is the Python crash case.) -/
def wordRuleViolations (s : Settings) (last : Char) (x y : Int) (w : Word)
    (d : Char) : List Violation :=
  (if w ∈ s.dictionary then [] else [.notInDictionary w]) ++
  (match w with
   | [] => [.crash]
   | c :: _ => if c = last then [] else [.wrongStartLetter w last]) ++
  (let p := advanceEnd d x y w.length
   if (0 ≤ p.1 ∧ p.1 ≤ (s.grid_width : Int) - 1) ∧
      (0 ≤ p.2 ∧ p.2 ≤ (s.grid_height : Int) - 1) then []
   else [.outOfBounds w])

/-- Modelled from the spec (section 4.2): the per-word pass reports, for
the first offending word, the earliest violated rule in the priority
order (the head of its priority-ordered violation list). -/
def validateSpecWords (s : Settings) :
    Char → Int → Int → List Entry → Except Violation Unit
  | _, _, _, [] => .ok ()
  | last, x, y, (w, d) :: rest =>
    match (wordRuleViolations s last x y w d).head? with
    | some v => .error v
    | none =>
      let p := advanceEnd d x y w.length
      validateSpecWords s (w.getLastD last) p.1 p.2 rest

/-- Modelled from the spec (section 4.2): after the per-word pass, check
for duplicate words across the whole candidate chain, then delegate full
placement to the grid model and surface any clash. -/
def validateSpec (s : Settings) (seed : Char × Int × Int) (wl : List Entry) :
    Except Violation Unit :=
  match validateSpecWords s seed.1 seed.2.1 seed.2.2 wl with
  | .error e => .error e
  | .ok _ =>
    if ¬ (wl.map (·.1)).Nodup then .error .duplicateWord
    else
      match fill_grid_from_wordlist s seed wl with
      | .error e => .error e
      | .ok _ => .ok ()

/-- The chain-continuity invariant: the first word starts with the running
letter, and recursively each next word starts with the previous word's
last letter. -/
def chainContinuous (last : Char) : List Entry → Prop
  | [] => True
  | (w, _) :: rest => w.head? = some last ∧ chainContinuous (w.getLastD last) rest

/-- The cells occupied by one word placed from `(x, y)` in direction `d`:
one cell per letter, stepping one unit between consecutive letters. -/
def wordCells (d : Char) : List Char → Int → Int → List (Int × Int)
  | [], _, _ => []
  | _ :: rest, x, y => (x, y) :: wordCells d rest (step d x y).1 (step d x y).2

/-- All cells written while placing a chain from `(x, y)`: each word's
cells, the next word starting at the previous word's endpoint (the cursor
advanced by `len(word) - 1`). -/
def chainCells : List Entry → Int → Int → List (Int × Int)
  | [], _, _ => []
  | (w, d) :: rest, x, y =>
    let p := advanceEnd d x y w.length
    wordCells d w x y ++ chainCells rest p.1 p.2

/-- The vertical line of `show_hint`
(`"".join([line[last_x] for line in grid])`): the column of cells at
`last_x`, one per row.  Modelled for an in-bounds cursor, where the Python
index `line[last_x]` is a plain in-range access. -/
def v_line (s : Settings) (g : Grid) (lastX : Nat) : List Char :=
  g.map fun line => line.getD lastX s.filler

/-- The North mask of `show_hint` (`v_line[:n_max][::-1]` with
`n_max = last_y + 1`): the column from the top edge down to the cursor
row, reversed. -/
def n_mask (s : Settings) (g : Grid) (lastX lastY : Nat) : List Char :=
  ((v_line s g lastX).take (lastY + 1)).reverse

/-- The South mask of `show_hint` (`v_line[last_y:]`): the column from the
cursor row down to the bottom edge. -/
def s_mask (s : Settings) (g : Grid) (lastX lastY : Nat) : List Char :=
  (v_line s g lastX).drop lastY

/-- The West mask of `show_hint` (`grid[last_y][:w_max][::-1]` with
`w_max = last_x + 1`): the row from the left edge to the cursor column,
reversed. -/
def w_mask (g : Grid) (lastX lastY : Nat) : List Char :=
  ((g.getD lastY []).take (lastX + 1)).reverse

/-- The East mask of `show_hint` (`grid[last_y][last_x:]`): the row from
the cursor column to the right edge. -/
def e_mask (g : Grid) (lastX lastY : Nat) : List Char :=
  (g.getD lastY []).drop lastX

/-- `overlay` of `show_hint`: overlay the mask on the word, keeping the
word's letter where the mask holds filler and the mask's letter otherwise.
The Python comprehension reads `mask[index]` for every index of the word,
so it raises `IndexError` — `none` here — exactly when the word is longer
than the mask. -/
def overlayOpt (filler : Char) (word mask : List Char) : Option (List Char) :=
  if word.length ≤ mask.length then
    some (List.zipWith (fun letter m => if m = filler then letter else m) word mask)
  else none

/-- Stable insertion of a word into a list sorted by descending length:
the word goes after every word at least as long, so equal-length words
keep their earlier relative order. -/
def insertWord (w : Word) : List Word → List Word
  | [] => [w]
  | v :: vs => if w.length ≤ v.length then v :: insertWord w vs else w :: v :: vs

/-- `sorted(words, key=len, reverse=True)` of `show_hint`: a stable sort
by descending word length (Python's `sorted` is stable, and `reverse=True`
does not reorder equal keys). -/
def sortByLenDesc (l : List Word) : List Word :=
  l.foldl (fun acc w => insertWord w acc) []

/-- The candidate loop of `show_hint`: filter the dictionary to words
starting with the current last letter, sort by descending length (stable),
skip words already used, and give each remaining word the first direction
— North, South, West, East, in that order — whose length guard and
overlay-equality test both pass. -/
def hintsFor (s : Settings) (g : Grid) (lastX lastY : Nat) (lastLetter : Char)
    (used : List Word) : List (Word × String) :=
  let nMax := lastY + 1
  let sMax := s.grid_height - lastY
  let wMax := lastX + 1
  let eMax := s.grid_width - lastX
  let nM := n_mask s g lastX lastY
  let sM := s_mask s g lastX lastY
  let wM := w_mask g lastX lastY
  let eM := e_mask g lastX lastY
  let words := s.dictionary.filter fun w => w.head? = some lastLetter
  (sortByLenDesc words).foldl
    (fun hints word =>
      if word ∈ used then hints
      else if word.length ≤ nMax ∧ overlayOpt s.filler word nM = some word then
        hints ++ [(word, "North")]
      else if word.length ≤ sMax ∧ overlayOpt s.filler word sM = some word then
        hints ++ [(word, "South")]
      else if word.length ≤ wMax ∧ overlayOpt s.filler word wM = some word then
        hints ++ [(word, "West")]
      else if word.length ≤ eMax ∧ overlayOpt s.filler word eM = some word then
        hints ++ [(word, "East")]
      else hints)
    []

/-- The hint list computed (and displayed, capped at the top 20) by
`show_hint`: derive cursor, last letter and grid from placement, then run
the candidate loop.  The words already in the chain are the used words. -/
def show_hint_hints (s : Settings) (seed : Char × Int × Int)
    (wl : List Entry) : Except Violation (List (Word × String)) :=
  match fill_grid_from_wordlist s seed wl with
  | .error e => .error e
  | .ok (lastX, lastY, lastLetter, g) =>
    .ok ((hintsFor s g lastX.toNat lastY.toNat lastLetter (wl.map (·.1))).take 20)

/-- The word "APE". -/
def apeW : Word := ['A', 'P', 'E']

/-- The word "ELF". -/
def elfW : Word := ['E', 'L', 'F']

/-- The word "ANT". -/
def antW : Word := ['A', 'N', 'T']

/-- A 10×10 session whose dictionary holds "APE" and "ELF" (scenario B). -/
def s6 : Settings := ⟨10, 10, [apeW, elfW], '.'⟩

/-- A 10×10 session whose dictionary holds "APE" and "ANT" (scenario E). -/
def s7 : Settings := ⟨10, 10, [apeW, antW], '.'⟩

/-- A 10×10 session whose dictionary holds only "APE". -/
def s1 : Settings := ⟨10, 10, [apeW], '.'⟩

/-- The seed `("A", (5, 5))`. -/
def seed55 : Char × Int × Int := ('A', 5, 5)

/-- C5: `calculate_seed` returns `("A", (5, 5))` on every invocation —
whatever the settings, the date, and the values the dead randomized code
would have drawn — because the hard-coded `return` on line 144 precedes
the randomized `return`, which is unreachable. -/
theorem C5_calculate_seed_constant :
    ∀ (s : Settings) (today : Nat) (randLetter : Char) (randX randY : Int),
      calculate_seed s today randLetter randX randY = some ('A', 5, 5) := by
  intro s today randLetter randX randY
  rfl

/-- Folding `+ length` over a list starting from `a` adds the sum of the
lengths. -/
theorem foldl_add_length (wl : List Entry) :
    ∀ a : Nat, wl.foldl (fun score word => score + word.1.length) a =
      a + (wl.map (fun e => e.1.length)).sum := by
  induction wl with
  | nil => intro a; simp
  | cons e rest ih =>
    intro a
    simp only [List.foldl_cons, List.map_cons, List.sum_cons, ih]
    omega

/-- C8: for every chain, `calculate_score` equals the sum of the lengths
of the chain's words (each letter counted once per occurrence in a word,
overlaps included); in particular the empty chain scores 0. -/
theorem C8_score_additivity :
    (∀ wl : List Entry,
        calculate_score wl = (wl.map (fun e => e.1.length)).sum) ∧
      calculate_score [] = 0 := by
  refine ⟨fun wl => ?_, rfl⟩
  simpa using foldl_add_length wl 0

/-- C6: with a 10×10 grid, seed `("A", (5, 5))` and a dictionary holding
"APE" and "ELF", validating `[("APE", "E"), ("ELF", "W")]` fails with the
clash raised for "ELF"; indeed placing just "APE" eastward ends the cursor
at `(7, 5)` and leaves `'P'` on cell `(6, 5)`, the cell "ELF" placed
westward covers with `'L'` at its second letter. -/
theorem C6_clash_scenario :
    validate s6 seed55 [(apeW, 'E'), (elfW, 'W')] =
        .error (.clash elfW) ∧
      (fill_grid_from_wordlist s6 seed55 [(apeW, 'E')]).map
          (fun r => (r.1, r.2.1, readCell pyIdx r.2.2.2 6 5)) =
        .ok (7, 5, some 'P') := by
  exact ⟨rfl, rfl⟩

/-- C7: with a 10×10 grid empty except for seed `'A'` at `(5, 5)`, an
empty chain, and the dictionary `["APE", "ANT"]`, the hint result contains
both words, in dictionary input order (the stable descending-length sort
keeps equal-length words in input order), each tagged North — the first
direction in the North, South, West, East priority that fits. -/
theorem C7_hint_scenario :
    show_hint_hints s7 seed55 [] =
      .ok [(apeW, "North"), (antW, "North")] := by
  rfl

/-- C9: `validate` is a pure function of its arguments — it returns a
verdict and touches no state — and the caller installs the candidate only
on success: whenever validation of the candidate chain fails, the
canonical chain after the submission step is exactly the chain from before
the call, the candidate being discarded. -/
theorem C9_validate_pure_discard (s : Settings) (seed : Char × Int × Int)
    (wordlist : List Entry) (w : Word) (d : Char) (e : Violation)
    (h : validate s seed (wordlist ++ [(w, d)]) = .error e) :
    submitWord s seed wordlist w d = (wordlist, some e) := by
  simp only [submitWord, h]

/-- Witness for C9 at a concrete failing submission: "ELF" is not in the
dictionary of `s1`, so submitting it leaves the canonical chain empty. -/
theorem C9_validate_pure_discard_witness :
    validate s1 seed55 ([] ++ [(elfW, 'E')]) =
        .error (.notInDictionary elfW) ∧
      submitWord s1 seed55 [] elfW 'E' = ([], some (.notInDictionary elfW)) :=
  ⟨rfl, C9_validate_pure_discard s1 seed55 [] elfW 'E' _ rfl⟩

/-- Modelled from the spec (section 4.3): the claimed North mask — the
column of cells strictly above the cursor, in edge-to-cursor order
reversed, so that its index 0 would be the cell adjacent to the cursor. -/
def n_mask_above (s : Settings) (g : Grid) (lastX lastY : Nat) : List Char :=
  ((v_line s g lastX).take lastY).reverse

/-- Modelled from the spec (section 4.3): the claimed West mask — the row
of cells strictly to the left of the cursor, reversed. -/
def w_mask_left (g : Grid) (lastX lastY : Nat) : List Char :=
  ((g.getD lastY []).take lastX).reverse

/-- The cell under the cursor. -/
def cursorCell (s : Settings) (g : Grid) (lastX lastY : Nat) : Char :=
  (g.getD lastY []).getD lastX s.filler

/-- C4 counterexample: on the grid placed from seed `'A'` at `(5, 5)` with
an empty chain, the code's North mask is `"A....."` — its index 0 is the
cursor's own cell `'A'` — while the strictly-above-reversed mask the claim
describes is `"....."`; the two differ, and the cursor's cell *is* the
element at index 0. -/
theorem C4_mask_counterexample :
    (fill_grid_from_wordlist s7 seed55 []).map
        (fun r => n_mask s7 r.2.2.2 5 5) =
      .ok ['A', '.', '.', '.', '.', '.'] ∧
    (fill_grid_from_wordlist s7 seed55 []).map
        (fun r => n_mask_above s7 r.2.2.2 5 5) =
      .ok ['.', '.', '.', '.', '.'] ∧
    (['A', '.', '.', '.', '.', '.'] : List Char) ≠ ['.', '.', '.', '.', '.'] ∧
    (fill_grid_from_wordlist s7 seed55 []).map
        (fun r => ((n_mask s7 r.2.2.2 5 5).head?, readCell pyIdx r.2.2.2 5 5)) =
      .ok (some 'A', some 'A') := by
  exact ⟨rfl, rfl, by decide, rfl⟩

/-- Reversing `take (n + 1)` exposes the element at `n` as the head. -/
theorem take_succ_reverse (l : List Char) (n : Nat) (h : n < l.length)
    (d : Char) :
    (l.take (n + 1)).reverse = l.getD n d :: (l.take n).reverse := by
  rw [List.take_succ, List.reverse_append, List.getElem?_eq_getElem h]
  simp [List.getD_eq_getElem?_getD, List.getElem?_eq_getElem h]

/-- C4 amended: the code's North mask is the column from the top edge down
to and *including* the cursor, reversed — its index 0 is the cursor's own
cell, followed by the strictly-above cells in adjacency order; the West
mask likewise starts with the cursor's own cell followed by the cells
strictly to its left. -/
theorem C4_mask_amended (s : Settings) (g : Grid) (lastX lastY : Nat)
    (hy : lastY < g.length) (hx : lastX < (g.getD lastY []).length) :
    n_mask s g lastX lastY =
        cursorCell s g lastX lastY :: n_mask_above s g lastX lastY ∧
      w_mask g lastX lastY =
        cursorCell s g lastX lastY :: w_mask_left g lastX lastY := by
  constructor
  · have hlen : lastY < (v_line s g lastX).length := by
      simpa [v_line] using hy
    rw [n_mask, take_succ_reverse _ _ hlen s.filler, n_mask_above]
    have : (v_line s g lastX).getD lastY s.filler = cursorCell s g lastX lastY := by
      simp [v_line, cursorCell, List.getD_eq_getElem?_getD,
        List.getElem?_map, List.getElem?_eq_getElem hy]
    rw [this]
  · rw [w_mask, take_succ_reverse _ _ hx s.filler, w_mask_left, cursorCell]

/-- The grid of scenario E: all filler except the seed `'A'` at `(5, 5)`,
extracted from placement of the empty chain. -/
def demoGrid7 : Grid :=
  match fill_grid_from_wordlist s7 seed55 [] with
  | .ok r => r.2.2.2
  | .error _ => []

/-- Witness for the amended C4 on the scenario-E grid. -/
theorem C4_mask_amended_witness :
    5 < demoGrid7.length ∧ 5 < (demoGrid7.getD 5 []).length ∧
      (n_mask s7 demoGrid7 5 5 =
          cursorCell s7 demoGrid7 5 5 :: n_mask_above s7 demoGrid7 5 5 ∧
        w_mask demoGrid7 5 5 =
          cursorCell s7 demoGrid7 5 5 :: w_mask_left demoGrid7 5 5) :=
  ⟨by decide, by decide, C4_mask_amended s7 demoGrid7 5 5 (by decide) (by decide)⟩

/-- The per-word checks of `validate` report exactly the head of the
priority-ordered list of violated rules: when a word breaks several rules
at once, the one surfaced is the earliest in the order dictionary →
start letter → bounds. -/
theorem checkWord_eq_spec (s : Settings) (last : Char) (x y : Int) (w : Word)
    (d : Char) :
    checkWord s last x y w d =
      match (wordRuleViolations s last x y w d).head? with
      | some v => .error v
      | none => .ok () := by
  by_cases hdict : w ∈ s.dictionary
  · cases w with
    | nil => simp [checkWord, wordRuleViolations, hdict]
    | cons c cs =>
      by_cases hc : c = last
      · subst hc
        by_cases hx1 : 0 ≤ (advanceEnd d x y (cs.length + 1)).1 <;>
          by_cases hx2 : (advanceEnd d x y (cs.length + 1)).1 ≤
            (s.grid_width : Int) - 1 <;>
          by_cases hy1 : 0 ≤ (advanceEnd d x y (cs.length + 1)).2 <;>
          by_cases hy2 : (advanceEnd d x y (cs.length + 1)).2 ≤
            (s.grid_height : Int) - 1 <;>
          simp [checkWord, wordRuleViolations, hdict, hx1, hx2, hy1, hy2]
      · simp [checkWord, wordRuleViolations, hdict, hc]
  · simp [checkWord, wordRuleViolations, hdict]

/-- The word pass of `validate` coincides with the spec's word pass. -/
theorem validateWords_eq_specWords (s : Settings) :
    ∀ (wl : List Entry) (last : Char) (x y : Int),
      validateWords s last x y wl = validateSpecWords s last x y wl := by
  intro wl
  induction wl with
  | nil => intro last x y; rfl
  | cons e rest ih =>
    intro last x y
    obtain ⟨w, d⟩ := e
    have hcw := checkWord_eq_spec s last x y w d
    cases hh : (wordRuleViolations s last x y w d).head? with
    | some v =>
      rw [hh] at hcw
      simp [validateWords, validateSpecWords, hcw, hh]
    | none =>
      rw [hh] at hcw
      simp [validateWords, validateSpecWords, hcw, hh, ih]

/-- A list has no duplicates exactly when deduplication keeps its
length — the content of the source's `len(wordlist) != len(set(...))`
test. -/
theorem nodup_iff_dedup_length (l : List Word) :
    l.dedup.length = l.length ↔ l.Nodup := by
  constructor
  · intro h
    have hsub := List.dedup_sublist l
    rw [← hsub.eq_of_length h]
    exact l.nodup_dedup
  · intro h
    rw [List.dedup_eq_self.mpr h]

/-- C2: `validate` reports the first violation in the fixed priority
order: per word, left to right, dictionary membership then start-letter
continuity then endpoint bounds, each short-circuiting; only after the
per-word pass the duplicate check; only after that full placement with
any clash surfaced.  For a word violating several rules at once the
earliest rule in this order is reported: `validate` equals the
spec-structured `validateSpec`, which picks the head of each word's
priority-ordered violation list. -/
theorem C2_validate_priority_order (s : Settings) (seed : Char × Int × Int)
    (wl : List Entry) :
    validate s seed wl = validateSpec s seed wl := by
  unfold validate validateSpec
  rw [validateWords_eq_specWords]
  cases validateSpecWords s seed.1 seed.2.1 seed.2.2 wl with
  | error e => rfl
  | ok u =>
    by_cases hnd : (wl.map (·.1)).Nodup
    · have h1 : ¬ wl.length ≠ (wl.map (·.1)).dedup.length := by
        have h2 := (nodup_iff_dedup_length (wl.map (·.1))).mpr hnd
        rw [List.length_map] at h2
        omega
      simp [h1, hnd]
    · have h1 : wl.length ≠ (wl.map (·.1)).dedup.length := by
        intro hEq
        refine hnd ((nodup_iff_dedup_length _).mp ?_)
        rw [List.length_map]
        omega
      simp [h1, hnd]

/-- Inversion of a successful per-word check: the word is in the
dictionary, nonempty with the required first letter, and its endpoint —
the cursor advanced by `len(word) - 1` along its direction — is within
the grid bounds. -/
theorem checkWord_ok_inv {s : Settings} {last : Char} {x y : Int} {w : Word}
    {d : Char} (h : checkWord s last x y w d = .ok ()) :
    w ∈ s.dictionary ∧ w.head? = some last ∧
      InB s (advanceEnd d x y w.length).1 (advanceEnd d x y w.length).2 := by
  by_cases hdict : w ∈ s.dictionary
  · cases w with
    | nil => simp [checkWord, hdict] at h
    | cons c cs =>
      by_cases hc : c = last
      · subst hc
        by_cases hbx : 0 ≤ (advanceEnd d x y (c :: cs).length).1 ∧
            (advanceEnd d x y (c :: cs).length).1 ≤ (s.grid_width : Int) - 1
        · by_cases hby : 0 ≤ (advanceEnd d x y (c :: cs).length).2 ∧
              (advanceEnd d x y (c :: cs).length).2 ≤ (s.grid_height : Int) - 1
          · exact ⟨hdict, rfl, hbx.1, hbx.2, hby.1, hby.2⟩
          · exfalso
            rw [checkWord] at h
            simp only [hdict, not_true_eq_false, if_false, ne_eq,
              not_true_eq_false, if_pos, if_neg] at h
            rw [if_neg (by simpa using hbx), if_pos (by simpa using hby)] at h
            exact Except.noConfusion h
        · exfalso
          rw [checkWord] at h
          simp only [hdict, not_true_eq_false, if_false, ne_eq,
            not_true_eq_false] at h
          rw [if_pos (by simpa using hbx)] at h
          exact Except.noConfusion h
      · simp [checkWord, hdict, hc] at h
  · simp [checkWord, hdict] at h

/-- A chain accepted by the word pass satisfies the continuity invariant. -/
theorem validateWords_continuous (s : Settings) :
    ∀ (wl : List Entry) (last : Char) (x y : Int),
      validateWords s last x y wl = .ok () → chainContinuous last wl := by
  intro wl
  induction wl with
  | nil => intro last x y _; trivial
  | cons e rest ih =>
    intro last x y h
    obtain ⟨w, d⟩ := e
    cases hcw : checkWord s last x y w d with
    | error e2 => simp [validateWords, hcw] at h
    | ok u =>
      cases u
      obtain ⟨_, hhead, _⟩ := checkWord_ok_inv hcw
      have h2 : validateWords s (w.getLastD last)
          (advanceEnd d x y w.length).1 (advanceEnd d x y w.length).2 rest =
            .ok () := by
        simpa [validateWords, hcw] using h
      exact ⟨hhead, ih _ _ _ h2⟩

/-- Inversion of a successful `validate`: the word pass accepted, the
words are pairwise distinct, and full placement succeeded. -/
theorem validate_ok_inv {s : Settings} {seed : Char × Int × Int}
    {wl : List Entry} (h : validate s seed wl = .ok ()) :
    validateWords s seed.1 seed.2.1 seed.2.2 wl = .ok () ∧
      (wl.map (·.1)).Nodup ∧
      ∃ r, fill_grid_from_wordlist s seed wl = .ok r := by
  unfold validate at h
  cases hvw : validateWords s seed.1 seed.2.1 seed.2.2 wl with
  | error e => rw [hvw] at h; exact Except.noConfusion h
  | ok u =>
    cases u
    rw [hvw] at h
    by_cases hdup : wl.length ≠ (wl.map (·.1)).dedup.length
    · rw [if_pos hdup] at h; exact Except.noConfusion h
    · rw [if_neg hdup] at h
      have hnd : (wl.map (·.1)).Nodup := by
        refine (nodup_iff_dedup_length _).mp ?_
        rw [List.length_map]
        omega
      cases hf : fill_grid_from_wordlist s seed wl with
      | error e => rw [hf] at h; exact Except.noConfusion h
      | ok r => exact ⟨rfl, hnd, r, rfl⟩

/-- C3: every chain accepted by `validate` satisfies the chain
invariants — the first word's first letter is the seed letter, each later
word's first letter is the previous word's last letter, and the words are
pairwise distinct. -/
theorem C3_accepted_chain_invariants (s : Settings) (seed : Char × Int × Int)
    (wl : List Entry) (h : validate s seed wl = .ok ()) :
    chainContinuous seed.1 wl ∧ (wl.map (·.1)).Nodup := by
  obtain ⟨hvw, hnd, _⟩ := validate_ok_inv h
  exact ⟨validateWords_continuous s wl seed.1 seed.2.1 seed.2.2 hvw, hnd⟩

/-- Witness for C3 on the accepted chain `[("APE", "E")]`. -/
theorem C3_accepted_chain_invariants_witness :
    validate s1 seed55 [(apeW, 'E')] = .ok () ∧
      (chainContinuous 'A' [(apeW, 'E')] ∧
        ([(apeW, 'E')].map (·.1)).Nodup) :=
  ⟨rfl, C3_accepted_chain_invariants s1 seed55 [(apeW, 'E')] rfl⟩

/-- Well-formed grid dimensions: `grid_height` rows of `grid_width` cells. -/
def goodDims (s : Settings) (g : Grid) : Prop :=
  g.length = s.grid_height ∧ ∀ row ∈ g, row.length = s.grid_width

/-- The empty grid has the configured dimensions. -/
theorem empty_grid_dims (s : Settings) : goodDims s s.empty_grid := by
  constructor
  · simp [Settings.empty_grid]
  · intro row hrow
    rw [List.eq_of_mem_replicate hrow]
    simp

/-- A successful cell write preserves the grid's dimensions, under any
index discipline: the resolved row is replaced by an update of itself. -/
theorem writeCell_dims {s : Settings} {idx : Idx} {g : Grid} {x y : Int}
    {c : Char} {g2 : Grid} (h : writeCell idx g x y c = some g2)
    (hg : goodDims s g) : goodDims s g2 := by
  unfold writeCell at h
  simp only [List.get?_eq_getElem?] at h
  cases hjy : idx g.length y with
  | none => simp [hjy] at h
  | some jy =>
    simp only [hjy] at h
    cases hrow : g[jy]? with
    | none => simp [hrow] at h
    | some row =>
      simp only [hrow] at h
      cases hset : setAt idx row x c with
      | none => simp [hset] at h
      | some row2 =>
        simp only [hset, Option.some.injEq] at h
        obtain ⟨hg1, hg2⟩ := hg
        have hrowmem : row ∈ g := by
          obtain ⟨hlt, rfl⟩ := List.getElem?_eq_some.mp hrow
          exact List.getElem_mem hlt
        have hrow2len : row2.length = row.length := by
          unfold setAt at hset
          cases hjx : idx row.length x with
          | none => simp [hjx] at hset
          | some jx =>
            simp only [hjx] at hset
            have h4 : row.set jx c = row2 := by simpa using hset
            rw [← h4]
            simp
        subst h
        refine ⟨by simpa using hg1, ?_⟩
        intro row3 hrow3
        rcases List.mem_or_eq_of_mem_set hrow3 with h3 | h3
        · exact hg2 row3 h3
        · rw [h3, hrow2len]
          exact hg2 row hrowmem

/-- Placing one word preserves the grid's dimensions. -/
theorem placeWordAux_dims {s : Settings} (idx : Idx) (d : Char) (w : Word) :
    ∀ (rest : List Char) (i : Nat) (x y : Int) (g : Grid),
      goodDims s g →
      ∀ r, placeWordAux idx s.filler d w rest i x y g = .ok r →
        goodDims s r.2.2 := by
  intro rest
  induction rest with
  | nil =>
    intro i x y g hg r h
    cases h
    exact hg
  | cons c rest2 ih =>
    intro i x y g hg r h
    rw [placeWordAux] at h
    cases hchk : clashCheck idx s.filler w c i g x y with
    | error e => simp [hchk] at h
    | ok u =>
      simp only [hchk] at h
      cases hw : writeCell idx g x y c with
      | none => simp [hw] at h
      | some g2 =>
        simp only [hw] at h
        exact ih _ _ _ _ (writeCell_dims hw hg) r h

/-- Placing a chain preserves the grid's dimensions. -/
theorem fillWordsAux_dims {s : Settings} (idx : Idx) :
    ∀ (wl : List Entry) (x y : Int) (letter : Char) (g : Grid),
      goodDims s g →
      ∀ r, fillWordsAux idx s.filler wl x y letter g = .ok r →
        goodDims s r.2.2.2 := by
  intro wl
  induction wl with
  | nil =>
    intro x y letter g hg r h
    cases h
    exact hg
  | cons e rest ih =>
    intro x y letter g hg r h
    obtain ⟨w, d⟩ := e
    rw [fillWordsAux] at h
    cases hp : placeWordAux idx s.filler d w w 0 x y g with
    | error e2 => simp [hp] at h
    | ok r2 =>
      obtain ⟨x2, y2, g2⟩ := r2
      simp only [hp] at h
      exact ih _ _ _ _ (placeWordAux_dims idx d w w 0 x y g hg _ hp) r h

/-- Any grid produced by `fill_grid_from_wordlist` has the configured
dimensions: `grid_height` rows of `grid_width` cells. -/
theorem fill_dims {s : Settings} {seed : Char × Int × Int} {wl : List Entry}
    {r : Int × Int × Char × Grid}
    (h : fill_grid_from_wordlist s seed wl = .ok r) : goodDims s r.2.2.2 := by
  unfold fill_grid_from_wordlist fillWithIdx at h
  cases hw : writeCell pyIdx s.empty_grid seed.2.1 seed.2.2 seed.1 with
  | none => simp [hw] at h
  | some g1 =>
    simp only [hw] at h
    exact fillWordsAux_dims pyIdx wl _ _ _ g1
      (writeCell_dims hw (empty_grid_dims s)) r h

/-- The overlay test reads no index out of range — it is defined — as soon
as the word is no longer than the mask. -/
theorem overlayOpt_isSome (filler : Char) (word mask : List Char)
    (h : word.length ≤ mask.length) : (overlayOpt filler word mask).isSome := by
  unfold overlayOpt
  rw [if_pos h]
  rfl

/-- C10: for a grid produced by placement and a cursor within grid bounds,
the four masks have exactly the four per-direction maximum usable lengths
(`n_max = last_y + 1`, `s_max = grid_height - last_y`,
`w_max = last_x + 1`, `e_max = grid_width - last_x`); hence whenever the
guard `len(word) <= max` of a direction passes, every mask index the
overlay test reads is within that mask, and no out-of-range access
occurs. -/
theorem C10_mask_lengths_safe (s : Settings) (seed : Char × Int × Int)
    (wl : List Entry) (lx ly : Int) (l : Char) (g : Grid)
    (hfill : fill_grid_from_wordlist s seed wl = .ok (lx, ly, l, g))
    (hx0 : 0 ≤ lx) (hx1 : lx < (s.grid_width : Int))
    (hy0 : 0 ≤ ly) (hy1 : ly < (s.grid_height : Int)) :
    ((n_mask s g lx.toNat ly.toNat).length = ly.toNat + 1 ∧
      (s_mask s g lx.toNat ly.toNat).length = s.grid_height - ly.toNat ∧
      (w_mask g lx.toNat ly.toNat).length = lx.toNat + 1 ∧
      (e_mask g lx.toNat ly.toNat).length = s.grid_width - lx.toNat) ∧
    ((∀ word : Word, word.length ≤ ly.toNat + 1 →
        (overlayOpt s.filler word (n_mask s g lx.toNat ly.toNat)).isSome) ∧
      (∀ word : Word, word.length ≤ s.grid_height - ly.toNat →
        (overlayOpt s.filler word (s_mask s g lx.toNat ly.toNat)).isSome) ∧
      (∀ word : Word, word.length ≤ lx.toNat + 1 →
        (overlayOpt s.filler word (w_mask g lx.toNat ly.toNat)).isSome) ∧
      (∀ word : Word, word.length ≤ s.grid_width - lx.toNat →
        (overlayOpt s.filler word (e_mask g lx.toNat ly.toNat)).isSome)) := by
  obtain ⟨hg1, hg2⟩ := fill_dims hfill
  have hny : ly.toNat < s.grid_height := by omega
  have hnx : lx.toNat < s.grid_width := by omega
  have hvlen : (v_line s g lx.toNat).length = s.grid_height := by
    simp [v_line, hg1]
  have hlt : ly.toNat < g.length := by rw [hg1]; exact hny
  have hrowval : g.getD ly.toNat [] = g[ly.toNat] := by
    rw [List.getD_eq_getElem?_getD, List.getElem?_eq_getElem hlt]
    rfl
  have hrow : (g.getD ly.toNat []).length = s.grid_width := by
    rw [hrowval]
    exact hg2 _ (List.getElem_mem hlt)
  have hn : (n_mask s g lx.toNat ly.toNat).length = ly.toNat + 1 := by
    simp only [n_mask, List.length_reverse, List.length_take, hvlen]
    omega
  have hs : (s_mask s g lx.toNat ly.toNat).length = s.grid_height - ly.toNat := by
    simp only [s_mask, List.length_drop, hvlen]
  have hw : (w_mask g lx.toNat ly.toNat).length = lx.toNat + 1 := by
    simp only [w_mask, List.length_reverse, List.length_take, hrow]
    omega
  have he : (e_mask g lx.toNat ly.toNat).length = s.grid_width - lx.toNat := by
    simp only [e_mask, List.length_drop, hrow]
  refine ⟨⟨hn, hs, hw, he⟩,
    fun word hlen => overlayOpt_isSome _ _ _ (by rw [hn]; exact hlen),
    fun word hlen => overlayOpt_isSome _ _ _ (by rw [hs]; exact hlen),
    fun word hlen => overlayOpt_isSome _ _ _ (by rw [hw]; exact hlen),
    fun word hlen => overlayOpt_isSome _ _ _ (by rw [he]; exact hlen)⟩

/-- Witness for C10 on the scenario-E placement: cursor `(5, 5)` on the
10×10 grid. -/
theorem C10_mask_lengths_safe_witness :
    fill_grid_from_wordlist s7 seed55 [] = .ok (5, 5, 'A', demoGrid7) ∧
      (((n_mask s7 demoGrid7 5 5).length = 6 ∧
          (s_mask s7 demoGrid7 5 5).length = 5 ∧
          (w_mask demoGrid7 5 5).length = 6 ∧
          (e_mask demoGrid7 5 5).length = 5) ∧
        ((∀ word : Word, word.length ≤ 6 →
            (overlayOpt s7.filler word (n_mask s7 demoGrid7 5 5)).isSome) ∧
          (∀ word : Word, word.length ≤ 5 →
            (overlayOpt s7.filler word (s_mask s7 demoGrid7 5 5)).isSome) ∧
          (∀ word : Word, word.length ≤ 6 →
            (overlayOpt s7.filler word (w_mask demoGrid7 5 5)).isSome) ∧
          (∀ word : Word, word.length ≤ 5 →
            (overlayOpt s7.filler word (e_mask demoGrid7 5 5)).isSome))) :=
  ⟨rfl, C10_mask_lengths_safe s7 seed55 [] 5 5 'A' demoGrid7 rfl
    (by decide) (by decide) (by decide) (by decide)⟩

/-- One cursor step adds the direction's unit deltas. -/
theorem step_eq (d : Char) (x y : Int) :
    step d x y = (x + dxOf d, y + dyOf d) := by
  unfold step dxOf dyOf
  split_ifs with h1 h2 h3 h4 <;> simp_all <;> omega

/-- The endpoint advance adds `len - 1` times the direction's unit
deltas. -/
theorem advanceEnd_eq (d : Char) (x y : Int) (len : Nat) :
    advanceEnd d x y len =
      (x + dxOf d * ((len : Int) - 1), y + dyOf d * ((len : Int) - 1)) := by
  unfold advanceEnd dxOf dyOf
  split_ifs with h1 h2 h3 h4 <;> simp_all <;> ring_nf

/-- The horizontal unit delta is `-1`, `0` or `1`. -/
theorem dxOf_cases (d : Char) : dxOf d = -1 ∨ dxOf d = 0 ∨ dxOf d = 1 := by
  unfold dxOf
  split_ifs <;> simp

/-- The vertical unit delta is `-1`, `0` or `1`. -/
theorem dyOf_cases (d : Char) : dyOf d = -1 ∨ dyOf d = 0 ∨ dyOf d = 1 := by
  unfold dyOf
  split_ifs <;> simp

/-- Interval step: a unit move from an in-range point toward an in-range
point `k ≥ 1` unit steps away stays in range. -/
theorem between_step (a B dlt : Int) (k : Nat)
    (hd : dlt = -1 ∨ dlt = 0 ∨ dlt = 1) (hk : 1 ≤ k)
    (h0 : 0 ≤ a) (h1 : a ≤ B)
    (h2 : 0 ≤ a + dlt * (k : Int)) (h3 : a + dlt * (k : Int) ≤ B) :
    0 ≤ a + dlt ∧ a + dlt ≤ B := by
  rcases hd with rfl | rfl | rfl <;> omega

/-- At an in-range index both index disciplines resolve identically. -/
theorem idx_agree {n : Nat} {i : Int} (h0 : 0 ≤ i) (h1 : i < (n : Int)) :
    pyIdx n i = some i.toNat ∧ strictIdx n i = some i.toNat := by
  unfold pyIdx strictIdx
  rw [if_pos ⟨h0, h1⟩, if_pos ⟨h0, h1⟩]
  exact ⟨rfl, rfl⟩

/-- Reading an in-bounds cell of a well-dimensioned grid succeeds and
agrees between the two index disciplines. -/
theorem readCell_agree {s : Settings} {g : Grid} {x y : Int}
    (hg : goodDims s g) (hin : InB s x y) :
    ∃ c, readCell strictIdx g x y = some c ∧ readCell pyIdx g x y = some c := by
  obtain ⟨hg1, hg2⟩ := hg
  obtain ⟨hx0, hx1, hy0, hy1⟩ := hin
  have hyn : y < (g.length : Int) := by rw [hg1]; omega
  obtain ⟨hpy, hst⟩ := idx_agree hy0 hyn
  have hylt : y.toNat < g.length := by omega
  have hrow : g[y.toNat]? = some g[y.toNat] := List.getElem?_eq_getElem hylt
  have hrowmem : g[y.toNat] ∈ g := List.getElem_mem hylt
  have hrowlen : (g[y.toNat]).length = s.grid_width := hg2 _ hrowmem
  have hxn : x < ((g[y.toNat]).length : Int) := by rw [hrowlen]; omega
  obtain ⟨hpx, hsx⟩ := idx_agree hx0 hxn
  have hxlt : x.toNat < (g[y.toNat]).length := by omega
  refine ⟨g[y.toNat][x.toNat], ?_, ?_⟩ <;>
    simp [readCell, getAt, hpy, hst, hrow, hpx, hsx,
      List.getElem?_eq_getElem hxlt]

/-- Writing an in-bounds cell of a well-dimensioned grid succeeds and
agrees between the two index disciplines. -/
theorem writeCell_agree {s : Settings} {g : Grid} {x y : Int}
    (hg : goodDims s g) (hin : InB s x y) (c : Char) :
    ∃ g2, writeCell strictIdx g x y c = some g2 ∧
      writeCell pyIdx g x y c = some g2 := by
  obtain ⟨hg1, hg2⟩ := hg
  obtain ⟨hx0, hx1, hy0, hy1⟩ := hin
  have hyn : y < (g.length : Int) := by rw [hg1]; omega
  obtain ⟨hpy, hst⟩ := idx_agree hy0 hyn
  have hylt : y.toNat < g.length := by omega
  have hrow : g[y.toNat]? = some g[y.toNat] := List.getElem?_eq_getElem hylt
  have hrowlen : (g[y.toNat]).length = s.grid_width :=
    hg2 _ (List.getElem_mem hylt)
  have hxn : x < ((g[y.toNat]).length : Int) := by rw [hrowlen]; omega
  obtain ⟨hpx, hsx⟩ := idx_agree hx0 hxn
  refine ⟨g.set y.toNat ((g[y.toNat]).set x.toNat c), ?_, ?_⟩ <;>
    simp [writeCell, setAt, hpy, hst, hrow, hpx, hsx]

/-- Core walk lemma: placing the remaining letters of a word from an
in-bounds cursor whose remaining-endpoint is also in bounds behaves
identically under strict and Python index resolution (so every access is
at a coordinate in `[0, width) × [0, height)`), ends exactly at that
endpoint, and preserves the grid dimensions. -/
theorem placeWordAux_strict_eq (s : Settings) (d : Char) (w : Word) :
    ∀ (rest : List Char) (i : Nat) (x y : Int) (g : Grid),
      i + rest.length = w.length →
      goodDims s g →
      InB s x y →
      InB s (x + dxOf d * ((rest.length - 1 : Nat) : Int))
        (y + dyOf d * ((rest.length - 1 : Nat) : Int)) →
      placeWordAux strictIdx s.filler d w rest i x y g =
          placeWordAux pyIdx s.filler d w rest i x y g ∧
        ∀ x2 y2 g2,
          placeWordAux strictIdx s.filler d w rest i x y g = .ok (x2, y2, g2) →
          x2 = x + dxOf d * ((rest.length - 1 : Nat) : Int) ∧
          y2 = y + dyOf d * ((rest.length - 1 : Nat) : Int) ∧
          goodDims s g2 := by
  intro rest
  induction rest with
  | nil =>
    intro i x y g hlen hg hcur hend
    refine ⟨rfl, ?_⟩
    intro x2 y2 g2 h
    simp only [placeWordAux, Except.ok.injEq] at h
    obtain ⟨rfl, rfl, rfl⟩ := h
    exact ⟨by simp, by simp, hg⟩
  | cons c rest2 ih =>
    intro i x y g hlen hg hcur hend
    have hcast : (((c :: rest2).length - 1 : Nat) : Int) = (rest2.length : Int) := by
      simp
    rw [hcast] at hend ⊢
    have hchk_eq : clashCheck strictIdx s.filler w c i g x y =
        clashCheck pyIdx s.filler w c i g x y := by
      unfold clashCheck
      by_cases hi : 0 < i
      · rw [if_pos hi, if_pos hi]
        obtain ⟨cur, h1, h2⟩ := readCell_agree hg hcur
        rw [h1, h2]
      · rw [if_neg hi, if_neg hi]
    obtain ⟨g2, hw1, hw2⟩ := writeCell_agree hg hcur c
    have hg2 : goodDims s g2 := writeCell_dims hw2 hg
    simp only [placeWordAux, hchk_eq]
    cases hchk : clashCheck pyIdx s.filler w c i g x y with
    | error e =>
      refine ⟨rfl, ?_⟩
      intro x2 y2 g3 h
      exact Except.noConfusion h
    | ok u =>
      simp only [hw1, hw2]
      by_cases hr2 : rest2 = []
      · subst hr2
        have hmov : ¬ i < w.length - 1 := by
          simp at hlen
          omega
        rw [if_neg hmov]
        refine ⟨rfl, ?_⟩
        intro x2 y2 g3 h
        simp only [placeWordAux, Except.ok.injEq] at h
        obtain ⟨rfl, rfl, rfl⟩ := h
        exact ⟨by simp, by simp, hg2⟩
      · have hL : 1 ≤ rest2.length := by
          have := List.length_pos.mpr hr2
          omega
        have hmov : i < w.length - 1 := by
          simp at hlen
          omega
        rw [if_pos hmov, step_eq]
        obtain ⟨hx0, hx1, hy0, hy1⟩ := hcur
        obtain ⟨he0, he1, he2, he3⟩ := hend
        have hX := between_step x ((s.grid_width : Int) - 1) (dxOf d)
          rest2.length (dxOf_cases d) hL hx0 hx1 he0 he1
        have hY := between_step y ((s.grid_height : Int) - 1) (dyOf d)
          rest2.length (dyOf_cases d) hL hy0 hy1 he2 he3
        have hcast2 : ((rest2.length - 1 : Nat) : Int) = (rest2.length : Int) - 1 := by
          omega
        have heqx : (x + dxOf d) + dxOf d * ((rest2.length - 1 : Nat) : Int) =
            x + dxOf d * (rest2.length : Int) := by
          rw [hcast2]; ring
        have heqy : (y + dyOf d) + dyOf d * ((rest2.length - 1 : Nat) : Int) =
            y + dyOf d * (rest2.length : Int) := by
          rw [hcast2]; ring
        have hlen2 : (i + 1) + rest2.length = w.length := by
          simp at hlen
          omega
        have hend2 : InB s ((x + dxOf d) + dxOf d * ((rest2.length - 1 : Nat) : Int))
            ((y + dyOf d) + dyOf d * ((rest2.length - 1 : Nat) : Int)) := by
          rw [heqx, heqy]
          exact ⟨he0, he1, he2, he3⟩
        obtain ⟨hEq, hInv⟩ := ih (i + 1) (x + dxOf d) (y + dyOf d) g2
          hlen2 hg2 ⟨hX.1, hX.2, hY.1, hY.2⟩ hend2
        refine ⟨hEq, ?_⟩
        intro x2 y2 g3 h
        obtain ⟨hx2, hy2, hg3⟩ := hInv x2 y2 g3 h
        rw [heqx] at hx2
        rw [heqy] at hy2
        exact ⟨hx2, hy2, hg3⟩

/-- Under a word pass accepted by `validate`, the whole placement loop
behaves identically under strict and Python index resolution, starting
from any in-bounds cursor and well-dimensioned grid. -/
theorem fillWordsAux_strict_eq (s : Settings) :
    ∀ (wl : List Entry) (last : Char) (x y : Int) (letter : Char) (g : Grid),
      validateWords s last x y wl = .ok () →
      goodDims s g → InB s x y →
      fillWordsAux strictIdx s.filler wl x y letter g =
        fillWordsAux pyIdx s.filler wl x y letter g := by
  intro wl
  induction wl with
  | nil => intro last x y letter g _ _ _; rfl
  | cons e rest ih =>
    intro last x y letter g h hg hcur
    obtain ⟨w, d⟩ := e
    cases hcw : checkWord s last x y w d with
    | error e2 => simp [validateWords, hcw] at h
    | ok u =>
      cases u
      have h2 : validateWords s (w.getLastD last)
          (advanceEnd d x y w.length).1 (advanceEnd d x y w.length).2 rest =
            .ok () := by
        simpa [validateWords, hcw] using h
      obtain ⟨hdict, hhead, hendB⟩ := checkWord_ok_inv hcw
      have hw_ne : w ≠ [] := by
        intro hnil
        rw [hnil] at hhead
        simp at hhead
      have hL : 1 ≤ w.length := by
        have := List.length_pos.mpr hw_ne
        omega
      have hcast : ((w.length - 1 : Nat) : Int) = (w.length : Int) - 1 := by
        omega
      have hendB1 : InB s (x + dxOf d * ((w.length : Int) - 1))
          (y + dyOf d * ((w.length : Int) - 1)) := by
        rw [advanceEnd_eq] at hendB
        simpa using hendB
      have hendB2 : InB s (x + dxOf d * ((w.length - 1 : Nat) : Int))
          (y + dyOf d * ((w.length - 1 : Nat) : Int)) := by
        rw [hcast]
        exact hendB1
      obtain ⟨hEq, hInv⟩ := placeWordAux_strict_eq s d w w 0 x y g
        (by simp) hg hcur hendB2
      simp only [fillWordsAux, hEq]
      cases hp : placeWordAux pyIdx s.filler d w w 0 x y g with
      | error e3 => rfl
      | ok r =>
        obtain ⟨x2, y2, g2⟩ := r
        obtain ⟨hx2, hy2, hg2⟩ := hInv x2 y2 g2 (by rw [hEq]; exact hp)
        have hxad : (advanceEnd d x y w.length).1 = x2 := by
          rw [advanceEnd_eq, hx2, hcast]
        have hyad : (advanceEnd d x y w.length).2 = y2 := by
          rw [advanceEnd_eq, hy2, hcast]
        rw [hxad, hyad] at h2
        have hcur2 : InB s x2 y2 := by
          rw [hx2, hy2]
          exact hendB2
        exact ih (w.getLastD last) x2 y2 (w.getLastD letter) g2 h2 hg2 hcur2

/-- All cells of a word whose start and endpoint are in bounds are in
bounds: the walk moves monotonically along one axis between them. -/
theorem wordCells_inB (s : Settings) (d : Char) :
    ∀ (w : List Char) (x y : Int),
      InB s x y →
      InB s (x + dxOf d * ((w.length - 1 : Nat) : Int))
        (y + dyOf d * ((w.length - 1 : Nat) : Int)) →
      ∀ p ∈ wordCells d w x y, InB s p.1 p.2 := by
  intro w
  induction w with
  | nil =>
    intro x y _ _ p hp
    simp [wordCells] at hp
  | cons c rest2 ih =>
    intro x y hcur hend p hp
    have hcast : (((c :: rest2).length - 1 : Nat) : Int) = (rest2.length : Int) := by
      simp
    rw [hcast] at hend
    simp only [wordCells, List.mem_cons] at hp
    rcases hp with rfl | hp2
    · exact hcur
    · by_cases hr2 : rest2 = []
      · subst hr2
        simp [wordCells] at hp2
      · have hL : 1 ≤ rest2.length := by
          have := List.length_pos.mpr hr2
          omega
        obtain ⟨hx0, hx1, hy0, hy1⟩ := hcur
        obtain ⟨he0, he1, he2, he3⟩ := hend
        have hX := between_step x ((s.grid_width : Int) - 1) (dxOf d)
          rest2.length (dxOf_cases d) hL hx0 hx1 he0 he1
        have hY := between_step y ((s.grid_height : Int) - 1) (dyOf d)
          rest2.length (dyOf_cases d) hL hy0 hy1 he2 he3
        have hcast2 : ((rest2.length - 1 : Nat) : Int) = (rest2.length : Int) - 1 := by
          omega
        have heqx : (x + dxOf d) + dxOf d * ((rest2.length - 1 : Nat) : Int) =
            x + dxOf d * (rest2.length : Int) := by
          rw [hcast2]; ring
        have heqy : (y + dyOf d) + dyOf d * ((rest2.length - 1 : Nat) : Int) =
            y + dyOf d * (rest2.length : Int) := by
          rw [hcast2]; ring
        have hstep : (step d x y).1 = x + dxOf d ∧ (step d x y).2 = y + dyOf d := by
          rw [step_eq]
          exact ⟨rfl, rfl⟩
        rw [hstep.1, hstep.2] at hp2
        refine ih (x + dxOf d) (y + dyOf d) ⟨hX.1, hX.2, hY.1, hY.2⟩ ?_ p hp2
        rw [heqx, heqy]
        exact ⟨he0, he1, he2, he3⟩

/-- All cells of a chain accepted by the word pass, walked from an
in-bounds cursor, are in bounds. -/
theorem chainCells_inB (s : Settings) :
    ∀ (wl : List Entry) (last : Char) (x y : Int),
      validateWords s last x y wl = .ok () → InB s x y →
      ∀ p ∈ chainCells wl x y, InB s p.1 p.2 := by
  intro wl
  induction wl with
  | nil =>
    intro last x y _ _ p hp
    simp [chainCells] at hp
  | cons e rest ih =>
    intro last x y h hcur p hp
    obtain ⟨w, d⟩ := e
    cases hcw : checkWord s last x y w d with
    | error e2 => simp [validateWords, hcw] at h
    | ok u =>
      cases u
      have h2 : validateWords s (w.getLastD last)
          (advanceEnd d x y w.length).1 (advanceEnd d x y w.length).2 rest =
            .ok () := by
        simpa [validateWords, hcw] using h
      obtain ⟨hdict, hhead, hendB⟩ := checkWord_ok_inv hcw
      have hw_ne : w ≠ [] := by
        intro hnil
        rw [hnil] at hhead
        simp at hhead
      have hL : 1 ≤ w.length := by
        have := List.length_pos.mpr hw_ne
        omega
      have hcast : ((w.length - 1 : Nat) : Int) = (w.length : Int) - 1 := by
        omega
      have hendB2 : InB s (x + dxOf d * ((w.length - 1 : Nat) : Int))
          (y + dyOf d * ((w.length - 1 : Nat) : Int)) := by
        rw [hcast]
        rw [advanceEnd_eq] at hendB
        simpa using hendB
      simp only [chainCells, List.mem_append] at hp
      rcases hp with hp1 | hp2
      · exact wordCells_inB s d w x y hcur hendB2 p hp1
      · exact ih (w.getLastD last) _ _ h2 hendB p hp2

/-- C1: for a seed within grid bounds and any chain `validate` accepts,
every cell written during full placement — every letter of every word at
every intermediate step — has coordinates within
`[0, grid_width) × [0, grid_height)`: the walk's cells are all in bounds,
and the placement re-run with strict (no negative wrap) index resolution
performs exactly the same accesses and succeeds, so no grid index access
in `fill_grid_from_wordlist` is out of range. -/
theorem C1_placement_in_bounds (s : Settings) (seed : Char × Int × Int)
    (wl : List Entry)
    (hseed : InB s seed.2.1 seed.2.2)
    (hok : validate s seed wl = .ok ()) :
    (∀ p ∈ chainCells wl seed.2.1 seed.2.2, InB s p.1 p.2) ∧
      fillStrict s seed wl = fill_grid_from_wordlist s seed wl ∧
      ∃ r, fillStrict s seed wl = .ok r := by
  obtain ⟨hvw, hnd, r, hfillok⟩ := validate_ok_inv hok
  have hcells := chainCells_inB s wl seed.1 seed.2.1 seed.2.2 hvw hseed
  have heq : fillStrict s seed wl = fill_grid_from_wordlist s seed wl := by
    unfold fillStrict fill_grid_from_wordlist fillWithIdx
    obtain ⟨g1, hw1, hw2⟩ := writeCell_agree (empty_grid_dims s) hseed seed.1
    simp only [hw1, hw2]
    exact fillWordsAux_strict_eq s wl seed.1 seed.2.1 seed.2.2 seed.1 g1 hvw
      (writeCell_dims hw2 (empty_grid_dims s)) hseed
  refine ⟨hcells, heq, r, ?_⟩
  rw [heq]
  exact hfillok

/-- Witness for C1 on the accepted chain `[("APE", "E")]` from seed
`("A", (5, 5))`. -/
theorem C1_placement_in_bounds_witness :
    InB s1 5 5 ∧ validate s1 seed55 [(apeW, 'E')] = .ok () ∧
      ((∀ p ∈ chainCells [(apeW, 'E')] 5 5, InB s1 p.1 p.2) ∧
        fillStrict s1 seed55 [(apeW, 'E')] =
          fill_grid_from_wordlist s1 seed55 [(apeW, 'E')] ∧
        ∃ r, fillStrict s1 seed55 [(apeW, 'E')] = .ok r) :=
  ⟨by decide, rfl,
    C1_placement_in_bounds s1 seed55 [(apeW, 'E')] (by decide) rfl⟩
